import Mathlib

/-!
# Verification of the token-bucket rate limiters of the yt_scraper repository

Shallow embedding of the two rate-limiter implementations and of the quota
cost model:

* `YtUtils` embeds `src/utils/rate_limiter.py` — the multi-quota limiter
  (`RateLimiter.__init__`, `_refill_tokens`, `acquire`, `get_quota_status`).
  Python floats are modelled as rationals; `time.time()` readings are passed
  explicitly as parameters.  The Python quota dictionary is modelled as a
  list of buckets in insertion order (Python dicts iterate in insertion
  order).  The `acquire` retry loop is modelled by an explicit schedule: the
  list of clock readings at which the successive attempts run; an exhausted
  schedule (the loop still running beyond the modelled horizon) yields
  `Option.none`.
* `YtSec` embeds `src/security/rate_limiter.py` — the single-key limiter
  (`TokenBucket`, `create_limit`, `_refill_tokens`, `check_limit`,
  `get_remaining_tokens`), with the bucket dictionary as an association
  list.
* `YtApi` embeds the quota-cost table and `_check_quota` of
  `src/scraper/youtube_api.py`.
-/

namespace YtUtils

/-- One quota of the multi-quota limiter: the configuration entries
`config['tokens']` (the capacity) and `config['interval']`, together with the
mutable fields `self.tokens[name]` and `self.last_refill[name]`. -/
structure Quota where
  capacity : ℚ
  interval : ℚ
  tokens : ℚ
  lastRefill : ℚ
  deriving DecidableEq, Repr

/-- `RateLimiter._refill_tokens`: `elapsed = now - last_refill`,
`new_tokens = (elapsed / interval) * capacity`,
`tokens = min(capacity, tokens + new_tokens)`, `last_refill = now`. -/
def refillTokens (now : ℚ) (q : Quota) : Quota :=
  { q with
    tokens := min q.capacity (q.tokens + (now - q.lastRefill) / q.interval * q.capacity)
    lastRefill := now }

/-- The token-check loop inside `acquire`: iterate over the quotas in order,
refill each, and stop at the first one whose balance is below the request
(`if self.tokens[quota_name] < tokens: can_acquire = False; break`).  Buckets
after the failing one are left untouched.  Returns the `can_acquire` flag and
the updated bucket list. -/
def checkAndRefill (now req : ℚ) : List Quota → Bool × List Quota
  | [] => (true, [])
  | q :: rest =>
      let q1 := refillTokens now q
      if q1.tokens < req then (false, q1 :: rest)
      else
        let r := checkAndRefill now req rest
        (r.1, q1 :: r.2)

/-- One iteration of the `acquire` loop (with all per-quota locks held):
refill-and-check every bucket; if all have enough, deduct `req` from every
bucket (`self.tokens[quota_name] -= tokens`) and report success. -/
def attempt (now req : ℚ) (qs : List Quota) : Bool × List Quota :=
  let r := checkAndRefill now req qs
  if r.1 then (true, r.2.map fun q => { q with tokens := q.tokens - req })
  else (false, r.2)

/-- The guard `if timeout and (time.time() - start_time) > timeout` of the
`acquire` loop.  Python truthiness: `None` and `0` are falsy, so the deadline
fires only for a present, non-zero timeout. -/
def timeoutHit (timeout : Option ℚ) (start now : ℚ) : Bool :=
  match timeout with
  | none => false
  | some t => if t = 0 then false else decide (now - start > t)

/-- The `while True` retry loop of `RateLimiter.acquire`, run over an explicit
schedule of clock readings (one per iteration).  Each iteration performs one
refill-check-(deduct) attempt; on success it returns `some true`, on a missed
deadline `some false`, otherwise it retries at the next scheduled time.  An
exhausted schedule returns `none` (the loop is still running at the end of the
modelled horizon). -/
def acquireLoop (req : ℚ) (timeout : Option ℚ) (start : ℚ) :
    List ℚ → List Quota → Option Bool × List Quota
  | [], qs => (none, qs)
  | now :: laterTimes, qs =>
      let r := attempt now req qs
      if r.1 then (some true, r.2)
      else if timeoutHit timeout start now then (some false, r.2)
      else acquireLoop req timeout start laterTimes r.2

/-- `RateLimiter.get_quota_status`: refill every bucket, report
`(available_tokens, max_tokens, refill_interval)` for each, and return the
(refilled) state alongside. -/
def getQuotaStatus (now : ℚ) (qs : List Quota) :
    List (ℚ × ℚ × ℚ) × List Quota :=
  let qs1 := qs.map (refillTokens now)
  (qs1.map fun q => (q.tokens, q.capacity, q.interval), qs1)

/-- Well-formedness of one bucket at clock reading `now`: positive interval
and nonnegative capacity from the configuration, balance between `0` and the
capacity, and a last-refill stamp not in the future. -/
def QuotaInv (now : ℚ) (q : Quota) : Prop :=
  0 ≤ q.capacity ∧ 0 < q.interval ∧ 0 ≤ q.tokens ∧ q.tokens ≤ q.capacity ∧
    q.lastRefill ≤ now

/-- All buckets of the limiter are well-formed at `now`. -/
def AllInv (now : ℚ) (qs : List Quota) : Prop :=
  ∀ q ∈ qs, QuotaInv now q

/-- Reachable limiter states, paired with the clock reading of the last
observation.  Construction initialises each balance to the capacity and the
last-refill stamp to the construction time; each later call happens at a
clock reading no earlier than the previous one.  `acquireStep` runs the whole
retry loop over a monotone schedule of iteration times starting at the call
time; `statusStep` runs `get_quota_status`. -/
inductive Reach : ℚ → List Quota → Prop
  | init (now : ℚ) (qs : List Quota)
      (hq : ∀ q ∈ qs, 0 ≤ q.capacity ∧ 0 < q.interval ∧
        q.tokens = q.capacity ∧ q.lastRefill = now) :
      Reach now qs
  | acquireStep (now req : ℚ) (timeout : Option ℚ) (ts : List ℚ)
      (qs : List Quota) (h : Reach now qs) (hreq : 1 ≤ req)
      (hts : List.Chain (· ≤ ·) now ts) :
      Reach (ts.getLastD now) (acquireLoop req timeout now (now :: ts) qs).2
  | statusStep (now now' : ℚ) (qs : List Quota) (h : Reach now qs)
      (hle : now ≤ now') :
      Reach now' (getQuotaStatus now' qs).2

end YtUtils

namespace YtSec

/-- The `TokenBucket` dataclass of `src/security/rate_limiter.py`:
`capacity`, `refill_rate`, `tokens`, `last_refill` (the integer capacity is
coerced to a rational, as Python coerces it into float arithmetic). -/
structure TokenBucket where
  capacity : ℚ
  refill_rate : ℚ
  tokens : ℚ
  last_refill : ℚ
  deriving DecidableEq, Repr

/-- The `self.buckets` dictionary, as an association list in insertion
order. -/
abbrev Buckets := List (String × TokenBucket)

/-- `self.buckets.get(key)`. -/
def lookupBucket (key : String) (bs : Buckets) : Option TokenBucket :=
  (List.find? (fun p => p.1 == key) bs).map Prod.snd

/-- In-place mutation of the bucket stored under `key` (dictionary keys are
unique, so replacing every matching entry models the single mutation). -/
def updateBucket (key : String) (b : TokenBucket) (bs : Buckets) : Buckets :=
  List.map (fun p => if p.1 == key then (p.1, b) else p) bs

/-- `RateLimiter.create_limit`: store a fresh bucket under `key` with
`tokens = float(capacity)` and `last_refill = time.time()`; a dictionary
assignment replaces an existing entry in place and appends a new key at the
end. -/
def createLimit (now : ℚ) (key : String) (capacity refillRate : ℚ)
    (bs : Buckets) : Buckets :=
  if List.any bs (fun p => p.1 == key) then
    updateBucket key ⟨capacity, refillRate, capacity, now⟩ bs
  else bs ++ [(key, ⟨capacity, refillRate, capacity, now⟩)]

/-- `RateLimiter._refill_tokens`: `elapsed = now - last_refill`,
`new_tokens = elapsed * refill_rate`,
`tokens = min(capacity, tokens + new_tokens)`, `last_refill = now`. -/
def refillBucket (now : ℚ) (b : TokenBucket) : TokenBucket :=
  { b with
    tokens := min b.capacity (b.tokens + (now - b.last_refill) * b.refill_rate)
    last_refill := now }

/-- `RateLimiter.check_limit`: unknown key logs a warning and succeeds with
no state change; otherwise refill, then deduct-and-succeed when
`tokens >= requested`, else fail (the refill is kept either way, since the
bucket object is mutated in place). -/
def checkLimit (now : ℚ) (key : String) (req : ℚ) (bs : Buckets) :
    Bool × Buckets :=
  match lookupBucket key bs with
  | none => (true, bs)
  | some b =>
      let b1 := refillBucket now b
      if b1.tokens ≥ req then
        (true, updateBucket key { b1 with tokens := b1.tokens - req } bs)
      else (false, updateBucket key b1 bs)

/-- `RateLimiter.get_remaining_tokens`: `None` for an unknown key, otherwise
refill and report the balance (the refill is kept). -/
def getRemainingTokens (now : ℚ) (key : String) (bs : Buckets) :
    Option ℚ × Buckets :=
  match lookupBucket key bs with
  | none => (none, bs)
  | some b =>
      let b1 := refillBucket now b
      (some b1.tokens, updateBucket key b1 bs)

/-- Well-formedness of one bucket at clock reading `now`: nonnegative
capacity and refill rate from the registration, balance between `0` and the
capacity, last-refill stamp not in the future. -/
def BucketInv (now : ℚ) (b : TokenBucket) : Prop :=
  0 ≤ b.capacity ∧ 0 ≤ b.refill_rate ∧ 0 ≤ b.tokens ∧ b.tokens ≤ b.capacity ∧
    b.last_refill ≤ now

/-- All registered buckets are well-formed at `now`. -/
def AllBucketInv (now : ℚ) (bs : Buckets) : Prop :=
  ∀ p ∈ bs, BucketInv now p.2

/-- Reachable states of the single-key limiter: `__init__` starts with an
empty dictionary; `create_limit` (with a nonnegative capacity and refill
rate), `check_limit` (requesting at least one token) and
`get_remaining_tokens` each run at a clock reading no earlier than the
previous one. -/
inductive SReach : ℚ → Buckets → Prop
  | init (now : ℚ) : SReach now []
  | createStep (now now' : ℚ) (key : String) (capacity refillRate : ℚ)
      (bs : Buckets) (h : SReach now bs) (hle : now ≤ now')
      (hcap : 0 ≤ capacity) (hrate : 0 ≤ refillRate) :
      SReach now' (createLimit now' key capacity refillRate bs)
  | checkStep (now now' req : ℚ) (key : String) (bs : Buckets)
      (h : SReach now bs) (hle : now ≤ now') (hreq : 1 ≤ req) :
      SReach now' (checkLimit now' key req bs).2
  | remainingStep (now now' : ℚ) (key : String) (bs : Buckets)
      (h : SReach now bs) (hle : now ≤ now') :
      SReach now' (getRemainingTokens now' key bs).2

end YtSec

namespace YtApi

/-- `YouTubeAPI.QUOTA_COSTS`: cost in quota units for each operation. -/
def QUOTA_COSTS : List (String × ℚ) :=
  [("list_videos", 1), ("list_comments", 1), ("search_videos", 100)]

/-- The lookup `self.QUOTA_COSTS.get(operation, 1)` in `_check_quota`. -/
def quotaCost (operation : String) : ℚ :=
  ((List.find? (fun p => p.1 == operation) QUOTA_COSTS).map Prod.snd).getD 1

/-- `YouTubeAPI._check_quota`: look the operation's cost up and pass it as
the token count of `rate_limiter.acquire(tokens=cost, timeout=timeout)`
(the retry loop is run over an explicit schedule, as in
`YtUtils.acquireLoop`). -/
def checkQuota (operation : String) (timeout : Option ℚ) (start : ℚ)
    (ts : List ℚ) (qs : List YtUtils.Quota) :
    Option Bool × List YtUtils.Quota :=
  YtUtils.acquireLoop (quotaCost operation) timeout start ts qs

end YtApi

namespace YtConc

open YtUtils

/-!
### Interleaving model for concurrent `acquire(1)` calls

In `RateLimiter.acquire` the refill-check-deduct sequence runs with every
per-quota lock held, so under any thread interleaving the token operations of
the competing calls serialise into some order of atomic attempts.  A state
records the identifiers of the threads whose attempt has not yet run, the
shared bucket list, and the tallies of succeeded and failed calls; a step
nondeterministically picks any pending thread and runs its atomic
`attempt now 1` (all steps share one clock reading `now`, modelling a window
with no refill). -/

/-- State of the interleaving model: pending thread ids, the shared buckets,
and the success / failure tallies. -/
structure CState where
  pending : List ℕ
  qs : List Quota
  succ : ℕ
  fail : ℕ
  deriving DecidableEq, Repr

/-- One interleaving step: any pending thread runs its atomic
lock-protected `attempt now 1` against the shared buckets and its call
returns the attempt's verdict. -/
inductive CStep (now : ℚ) : CState → CState → Prop
  | step (l1 l2 : List ℕ) (tid : ℕ) (qs : List Quota) (s f : ℕ) :
      CStep now ⟨l1 ++ tid :: l2, qs, s, f⟩
        ⟨l1 ++ l2, (attempt now 1 qs).2,
          if (attempt now 1 qs).1 then s + 1 else s,
          if (attempt now 1 qs).1 then f else f + 1⟩

/-- Inductive invariant of the interleaving runs started from a full bucket
of capacity `C` and `N` pending threads: the bucket holds `C - succ` tokens,
at most `C` calls have succeeded, a failure can only have happened once the
capacity was used up, and the three tallies account for all `N` threads. -/
def CInv (C : ℕ) (i now : ℚ) (N : ℕ) (st : CState) : Prop :=
  st.qs = [⟨(C : ℚ), i, (C : ℚ) - st.succ, now⟩] ∧ st.succ ≤ C ∧
    (0 < st.fail → st.succ = C) ∧ st.pending.length + st.succ + st.fail = N

end YtConc

namespace YtUtils

/-! ### Basic lemmas about one refill -/

theorem refill_tokens_eq (now : ℚ) (q : Quota) :
    (refillTokens now q).tokens =
      min q.capacity (q.tokens + (now - q.lastRefill) / q.interval * q.capacity) := rfl

theorem quotaInv_mono (now now' : ℚ) (q : Quota) (h : QuotaInv now q)
    (hle : now ≤ now') : QuotaInv now' q :=
  ⟨h.1, h.2.1, h.2.2.1, h.2.2.2.1, h.2.2.2.2.trans hle⟩

theorem le_refill_tokens (now now' : ℚ) (q : Quota) (hq : QuotaInv now q)
    (hle : now ≤ now') : q.tokens ≤ (refillTokens now' q).tokens := by
  obtain ⟨hcap, hint, h0, hlecap, hlast⟩ := hq
  have hg : 0 ≤ (now' - q.lastRefill) / q.interval * q.capacity :=
    mul_nonneg (div_nonneg (by linarith) hint.le) hcap
  exact le_min hlecap (by linarith)

theorem refill_inv (now now' : ℚ) (q : Quota) (hq : QuotaInv now q)
    (hle : now ≤ now') : QuotaInv now' (refillTokens now' q) := by
  obtain ⟨hcap, hint, h0, hlecap, hlast⟩ := hq
  have hg : 0 ≤ (now' - q.lastRefill) / q.interval * q.capacity :=
    mul_nonneg (div_nonneg (by linarith) hint.le) hcap
  exact ⟨hcap, hint, le_min hcap (by linarith), min_le_left _ _, le_refl _⟩

/-! ### Unfolding equations for the token-check loop -/

theorem checkAndRefill_nil (now req : ℚ) :
    checkAndRefill now req [] = (true, []) := rfl

theorem checkAndRefill_cons_lt (now req : ℚ) (q : Quota) (rest : List Quota)
    (h : (refillTokens now q).tokens < req) :
    checkAndRefill now req (q :: rest) = (false, refillTokens now q :: rest) := by
  simp [checkAndRefill, h]

theorem checkAndRefill_cons_ge (now req : ℚ) (q : Quota) (rest : List Quota)
    (h : ¬ (refillTokens now q).tokens < req) :
    checkAndRefill now req (q :: rest) =
      ((checkAndRefill now req rest).1,
        refillTokens now q :: (checkAndRefill now req rest).2) := by
  simp [checkAndRefill, h]

theorem checkAndRefill_fst_true_iff (now req : ℚ) (qs : List Quota) :
    (checkAndRefill now req qs).1 = true ↔
      ∀ q ∈ qs, req ≤ (refillTokens now q).tokens := by
  induction qs with
  | nil => simp [checkAndRefill_nil]
  | cons q rest ih =>
      by_cases h : (refillTokens now q).tokens < req
      · rw [checkAndRefill_cons_lt now req q rest h]
        simp only [List.mem_cons]
        constructor
        · intro hfalse; exact absurd hfalse (by simp)
        · intro hall; exact absurd (hall q (Or.inl rfl)) (not_le.mpr h)
      · rw [checkAndRefill_cons_ge now req q rest h]
        simp only [List.mem_cons]
        rw [show ((checkAndRefill now req rest).1,
              refillTokens now q :: (checkAndRefill now req rest).2).1 =
            (checkAndRefill now req rest).1 from rfl, ih]
        constructor
        · intro hall p hp
          rcases hp with rfl | hp
          · exact not_lt.mp h
          · exact hall p hp
        · intro hall p hp; exact hall p (Or.inr hp)

theorem checkAndRefill_snd_of_true (now req : ℚ) (qs : List Quota)
    (h : (checkAndRefill now req qs).1 = true) :
    (checkAndRefill now req qs).2 = qs.map (refillTokens now) := by
  induction qs with
  | nil => rfl
  | cons q rest ih =>
      by_cases hlt : (refillTokens now q).tokens < req
      · rw [checkAndRefill_cons_lt now req q rest hlt] at h
        exact absurd h (by simp)
      · rw [checkAndRefill_cons_ge now req q rest hlt] at h ⊢
        simp only [List.map_cons]
        exact congrArg _ (ih h)

theorem checkAndRefill_forall₂ (now req : ℚ) (qs : List Quota) :
    List.Forall₂ (fun a b => b = a ∨ b = refillTokens now a) qs
      (checkAndRefill now req qs).2 := by
  induction qs with
  | nil => exact List.Forall₂.nil
  | cons q rest ih =>
      by_cases h : (refillTokens now q).tokens < req
      · rw [checkAndRefill_cons_lt now req q rest h]
        exact List.Forall₂.cons (Or.inr rfl)
          (List.forall₂_same.2 fun x _ => Or.inl rfl)
      · rw [checkAndRefill_cons_ge now req q rest h]
        exact List.Forall₂.cons (Or.inr rfl) ih

theorem checkAndRefill_inv (now now' req : ℚ) (qs : List Quota)
    (hinv : AllInv now qs) (hle : now ≤ now') :
    AllInv now' (checkAndRefill now' req qs).2 := by
  induction qs with
  | nil => intro p hp; rw [checkAndRefill_nil] at hp; exact absurd hp (by simp)
  | cons q rest ih =>
      intro p hp
      by_cases hlt : (refillTokens now' q).tokens < req
      · rw [checkAndRefill_cons_lt now' req q rest hlt] at hp
        rcases List.mem_cons.mp hp with rfl | hp
        · exact refill_inv now now' q (hinv q (by simp)) hle
        · exact quotaInv_mono now now' p (hinv p (by simp [hp])) hle
      · rw [checkAndRefill_cons_ge now' req q rest hlt] at hp
        rcases List.mem_cons.mp hp with rfl | hp
        · exact refill_inv now now' q (hinv q (by simp)) hle
        · exact ih (fun x hx => hinv x (by simp [hx])) p hp

theorem checkAndRefill_tokens_le (now now' req : ℚ) (qs : List Quota)
    (hinv : AllInv now qs) (hle : now ≤ now') :
    List.Forall₂
      (fun a b => a.tokens ≤ b.tokens ∧ b.capacity = a.capacity ∧
        b.interval = a.interval)
      qs (checkAndRefill now' req qs).2 := by
  induction qs with
  | nil => exact List.Forall₂.nil
  | cons q rest ih =>
      by_cases hlt : (refillTokens now' q).tokens < req
      · rw [checkAndRefill_cons_lt now' req q rest hlt]
        refine List.Forall₂.cons
          ⟨le_refill_tokens now now' q (hinv q (by simp)) hle, rfl, rfl⟩ ?_
        exact List.forall₂_same.2 fun x _ => ⟨le_refl _, rfl, rfl⟩
      · rw [checkAndRefill_cons_ge now' req q rest hlt]
        exact List.Forall₂.cons
          ⟨le_refill_tokens now now' q (hinv q (by simp)) hle, rfl, rfl⟩
          (ih fun x hx => hinv x (by simp [hx]))

/-! ### Lemmas about one acquisition attempt -/

theorem attempt_fst_true_iff (now req : ℚ) (qs : List Quota) :
    (attempt now req qs).1 = true ↔
      ∀ q ∈ qs, req ≤ (refillTokens now q).tokens := by
  rw [← checkAndRefill_fst_true_iff]
  by_cases h : (checkAndRefill now req qs).1 = true
  · simp [attempt, h]
  · simp [attempt, h]

theorem attempt_snd_of_true (now req : ℚ) (qs : List Quota)
    (h : (attempt now req qs).1 = true) :
    (attempt now req qs).2 = qs.map fun q =>
      { refillTokens now q with tokens := (refillTokens now q).tokens - req } := by
  have hc : (checkAndRefill now req qs).1 = true := by
    by_contra hc
    simp [attempt, hc] at h
  have hsnd := checkAndRefill_snd_of_true now req qs hc
  simp [attempt, hc, hsnd, List.map_map, Function.comp]

theorem attempt_snd_of_false (now req : ℚ) (qs : List Quota)
    (h : (attempt now req qs).1 = false) :
    (attempt now req qs).2 = (checkAndRefill now req qs).2 := by
  by_cases hc : (checkAndRefill now req qs).1 = true
  · simp [attempt, hc] at h
  · simp [attempt, hc]

theorem attempt_inv (now now' req : ℚ) (qs : List Quota)
    (hinv : AllInv now qs) (hle : now ≤ now') (hreq : 0 ≤ req) :
    AllInv now' (attempt now' req qs).2 := by
  by_cases h : (attempt now' req qs).1 = true
  · rw [attempt_snd_of_true now' req qs h]
    intro p hp
    rw [List.mem_map] at hp
    obtain ⟨q, hq, rfl⟩ := hp
    have hinvq := refill_inv now now' q (hinv q hq) hle
    have henough := (attempt_fst_true_iff now' req qs).1 h q hq
    obtain ⟨hcap, hint, h0, hlecap, hlast⟩ := hinvq
    refine ⟨hcap, hint, ?_, ?_, hlast⟩
    · show 0 ≤ (refillTokens now' q).tokens - req
      linarith
    · show (refillTokens now' q).tokens - req ≤ (refillTokens now' q).capacity
      linarith
  · rw [attempt_snd_of_false now' req qs (by simpa using h)]
    exact checkAndRefill_inv now now' req qs hinv hle

theorem attempt_tokens_le_of_false (now now' req : ℚ) (qs : List Quota)
    (hinv : AllInv now qs) (hle : now ≤ now')
    (h : (attempt now' req qs).1 = false) :
    List.Forall₂
      (fun a b => a.tokens ≤ b.tokens ∧ b.capacity = a.capacity ∧
        b.interval = a.interval)
      qs (attempt now' req qs).2 := by
  rw [attempt_snd_of_false now' req qs h]
  exact checkAndRefill_tokens_le now now' req qs hinv hle

/-! ### Lemmas about the retry loop -/

theorem acquireLoop_nil (req : ℚ) (t : Option ℚ) (start : ℚ) (qs : List Quota) :
    acquireLoop req t start [] qs = (none, qs) := rfl

theorem acquireLoop_cons (req : ℚ) (t : Option ℚ) (start now : ℚ)
    (laterTimes : List ℚ) (qs : List Quota) :
    acquireLoop req t start (now :: laterTimes) qs =
      if (attempt now req qs).1 then (some true, (attempt now req qs).2)
      else if timeoutHit t start now then (some false, (attempt now req qs).2)
      else acquireLoop req t start laterTimes (attempt now req qs).2 := rfl

theorem chain_le_getLastD (n : ℚ) (ts : List ℚ)
    (h : List.Chain (· ≤ ·) n ts) : n ≤ ts.getLastD n := by
  induction ts generalizing n with
  | nil => exact le_refl n
  | cons m ts ih =>
      obtain ⟨hnm, hch⟩ := List.chain_cons.mp h
      rw [List.getLastD_cons]
      exact hnm.trans (ih m hch)

theorem acquireLoop_inv (req : ℚ) (t : Option ℚ) (start : ℚ) (ts : List ℚ) :
    ∀ (now : ℚ) (qs : List Quota), 0 ≤ req →
      AllInv now qs → List.Chain (· ≤ ·) now ts →
      AllInv (ts.getLastD now) (acquireLoop req t start ts qs).2 := by
  induction ts with
  | nil =>
      intro now qs _ hinv _
      rw [acquireLoop_nil]
      exact hinv
  | cons n ts ih =>
      intro now qs hreq hinv hch
      obtain ⟨hle, hch'⟩ := List.chain_cons.mp hch
      rw [List.getLastD_cons, acquireLoop_cons]
      have hinv' : AllInv n (attempt n req qs).2 :=
        attempt_inv now n req qs hinv hle hreq
      by_cases ha : (attempt n req qs).1 = true
      · rw [if_pos ha]
        exact fun q hq =>
          quotaInv_mono n _ q (hinv' q hq) (chain_le_getLastD n ts hch')
      · rw [if_neg (by simpa using ha)]
        by_cases hto : timeoutHit t start n = true
        · rw [if_pos hto]
          exact fun q hq =>
            quotaInv_mono n _ q (hinv' q hq) (chain_le_getLastD n ts hch')
        · rw [if_neg (by simpa using hto)]
          exact ih n (attempt n req qs).2 hreq hinv' hch'

/-! ### Lemmas about the status query -/

theorem getQuotaStatus_snd (now : ℚ) (qs : List Quota) :
    (getQuotaStatus now qs).2 = qs.map (refillTokens now) := rfl

theorem getQuotaStatus_inv (now now' : ℚ) (qs : List Quota)
    (hinv : AllInv now qs) (hle : now ≤ now') :
    AllInv now' (getQuotaStatus now' qs).2 := by
  rw [getQuotaStatus_snd]
  intro p hp
  rw [List.mem_map] at hp
  obtain ⟨q, hq, rfl⟩ := hp
  exact refill_inv now now' q (hinv q hq) hle

/-! ### The reachability invariant -/

theorem reach_allInv (now : ℚ) (qs : List Quota) (h : Reach now qs) :
    AllInv now qs := by
  induction h with
  | init now qs hq =>
      intro q hqm
      obtain ⟨hcap, hint, htok, hlast⟩ := hq q hqm
      exact ⟨hcap, hint, htok ▸ hcap, le_of_eq htok, le_of_eq hlast⟩
  | acquireStep now req t ts qs h hreq hts ih =>
      have hch : List.Chain (· ≤ ·) now (now :: ts) :=
        List.chain_cons.mpr ⟨le_refl now, hts⟩
      have := acquireLoop_inv req t now (now :: ts) now qs
        (le_trans zero_le_one hreq) ih hch
      rwa [List.getLastD_cons] at this
  | statusStep now now' qs h hle ih => exact getQuotaStatus_inv now now' qs ih hle

end YtUtils

namespace YtSec

/-! ### Lemmas about the single-key limiter -/

theorem bucketInv_mono (now now' : ℚ) (b : TokenBucket) (h : BucketInv now b)
    (hle : now ≤ now') : BucketInv now' b :=
  ⟨h.1, h.2.1, h.2.2.1, h.2.2.2.1, h.2.2.2.2.trans hle⟩

theorem refillBucket_inv (now now' : ℚ) (b : TokenBucket)
    (h : BucketInv now b) (hle : now ≤ now') :
    BucketInv now' (refillBucket now' b) := by
  obtain ⟨hcap, hrate, h0, hlecap, hlast⟩ := h
  have hg : 0 ≤ (now' - b.last_refill) * b.refill_rate :=
    mul_nonneg (by linarith) hrate
  exact ⟨hcap, hrate, le_min hcap (by linarith), min_le_left _ _, le_refl _⟩

theorem lookupBucket_inv (now : ℚ) (key : String) (bs : Buckets)
    (b : TokenBucket) (hinv : AllBucketInv now bs)
    (h : lookupBucket key bs = some b) : BucketInv now b := by
  unfold lookupBucket at h
  rw [Option.map_eq_some'] at h
  obtain ⟨p, hfind, rfl⟩ := h
  exact hinv p (List.mem_of_find?_eq_some hfind)

theorem updateBucket_inv (now : ℚ) (key : String) (b : TokenBucket)
    (bs : Buckets) (hinv : AllBucketInv now bs) (hb : BucketInv now b) :
    AllBucketInv now (updateBucket key b bs) := by
  intro p hp
  unfold updateBucket at hp
  rw [List.mem_map] at hp
  obtain ⟨p0, hp0, rfl⟩ := hp
  by_cases hk : p0.1 == key
  · rw [if_pos hk]
    exact hb
  · rw [if_neg hk]
    exact hinv p0 hp0

theorem createLimit_inv (now : ℚ) (key : String) (capacity refillRate : ℚ)
    (bs : Buckets) (hinv : AllBucketInv now bs) (hcap : 0 ≤ capacity)
    (hrate : 0 ≤ refillRate) :
    AllBucketInv now (createLimit now key capacity refillRate bs) := by
  have hb : BucketInv now (⟨capacity, refillRate, capacity, now⟩ : TokenBucket) :=
    ⟨hcap, hrate, hcap, le_refl _, le_refl _⟩
  unfold createLimit
  by_cases h : List.any bs (fun p => p.1 == key)
  · rw [if_pos h]
    exact updateBucket_inv now key _ bs hinv hb
  · rw [if_neg h]
    intro p hp
    rcases List.mem_append.mp hp with hp | hp
    · exact hinv p hp
    · rw [List.mem_singleton] at hp
      rw [hp]
      exact hb

theorem checkLimit_none (now : ℚ) (key : String) (req : ℚ) (bs : Buckets)
    (h : lookupBucket key bs = none) :
    checkLimit now key req bs = (true, bs) := by
  simp [checkLimit, h]

theorem checkLimit_some_ge (now : ℚ) (key : String) (req : ℚ) (bs : Buckets)
    (b : TokenBucket) (h : lookupBucket key bs = some b)
    (hge : (refillBucket now b).tokens ≥ req) :
    checkLimit now key req bs =
      (true, updateBucket key
        { refillBucket now b with tokens := (refillBucket now b).tokens - req }
        bs) := by
  simp [checkLimit, h, hge]

theorem checkLimit_some_lt (now : ℚ) (key : String) (req : ℚ) (bs : Buckets)
    (b : TokenBucket) (h : lookupBucket key bs = some b)
    (hge : ¬ (refillBucket now b).tokens ≥ req) :
    checkLimit now key req bs = (false, updateBucket key (refillBucket now b) bs) := by
  simp [checkLimit, h]
  exact not_le.mp hge

theorem getRemainingTokens_none (now : ℚ) (key : String) (bs : Buckets)
    (h : lookupBucket key bs = none) :
    getRemainingTokens now key bs = (none, bs) := by
  simp [getRemainingTokens, h]

theorem getRemainingTokens_some (now : ℚ) (key : String) (bs : Buckets)
    (b : TokenBucket) (h : lookupBucket key bs = some b) :
    getRemainingTokens now key bs =
      (some (refillBucket now b).tokens, updateBucket key (refillBucket now b) bs) := by
  simp [getRemainingTokens, h]

theorem checkLimit_inv (now now' req : ℚ) (key : String) (bs : Buckets)
    (hinv : AllBucketInv now bs) (hle : now ≤ now') (hreq : 0 ≤ req) :
    AllBucketInv now' (checkLimit now' key req bs).2 := by
  have hinv' : AllBucketInv now' bs := fun p hp =>
    bucketInv_mono now now' p.2 (hinv p hp) hle
  cases hlk : lookupBucket key bs with
  | none => rw [checkLimit_none now' key req bs hlk]; exact hinv'
  | some b =>
      have hb : BucketInv now' (refillBucket now' b) :=
        refillBucket_inv now' now' b
          (lookupBucket_inv now' key bs b hinv' hlk) (le_refl _)
      obtain ⟨hcap, hrate, h0, hlecap, hlast⟩ := hb
      by_cases hge : (refillBucket now' b).tokens ≥ req
      · rw [checkLimit_some_ge now' key req bs b hlk hge]
        refine updateBucket_inv now' key _ bs hinv' ⟨hcap, hrate, ?_, ?_, hlast⟩
        · show 0 ≤ (refillBucket now' b).tokens - req
          linarith
        · show (refillBucket now' b).tokens - req ≤ (refillBucket now' b).capacity
          linarith
      · rw [checkLimit_some_lt now' key req bs b hlk hge]
        exact updateBucket_inv now' key _ bs hinv' ⟨hcap, hrate, h0, hlecap, hlast⟩

theorem getRemainingTokens_inv (now now' : ℚ) (key : String) (bs : Buckets)
    (hinv : AllBucketInv now bs) (hle : now ≤ now') :
    AllBucketInv now' (getRemainingTokens now' key bs).2 := by
  have hinv' : AllBucketInv now' bs := fun p hp =>
    bucketInv_mono now now' p.2 (hinv p hp) hle
  cases hlk : lookupBucket key bs with
  | none => rw [getRemainingTokens_none now' key bs hlk]; exact hinv'
  | some b =>
      rw [getRemainingTokens_some now' key bs b hlk]
      exact updateBucket_inv now' key _ bs hinv'
        (refillBucket_inv now' now' b
          (lookupBucket_inv now' key bs b hinv' hlk) (le_refl _))

theorem sreach_allBucketInv (now : ℚ) (bs : Buckets) (h : SReach now bs) :
    AllBucketInv now bs := by
  induction h with
  | init now => intro p hp; exact absurd hp (by simp)
  | createStep now now' key capacity refillRate bs h hle hcap hrate ih =>
      exact createLimit_inv now' key capacity refillRate bs
        (fun p hp => bucketInv_mono now now' p.2 (ih p hp) hle) hcap hrate
  | checkStep now now' req key bs h hle hreq ih =>
      exact checkLimit_inv now now' req key bs ih hle
        (le_trans zero_le_one hreq)
  | remainingStep now now' key bs h hle ih =>
      exact getRemainingTokens_inv now now' key bs ih hle

end YtSec

namespace YtConc

open YtUtils

theorem attempt_single_now (c i t now : ℚ) (hc : t ≤ c) :
    attempt now 1 [⟨c, i, t, now⟩] =
      if t < 1 then (false, [⟨c, i, t, now⟩])
      else (true, [⟨c, i, t - 1, now⟩]) := by
  have hrefill : refillTokens now (⟨c, i, t, now⟩ : Quota) = ⟨c, i, t, now⟩ := by
    unfold refillTokens
    simp only [sub_self, zero_div, zero_mul, add_zero]
    rw [min_eq_right hc]
  by_cases h : t < 1
  · rw [if_pos h]
    simp [attempt, checkAndRefill, hrefill, h]
  · rw [if_neg h]
    simp [attempt, checkAndRefill, hrefill, h]

theorem cstep_inv (C : ℕ) (i now : ℚ) (N : ℕ) (st st' : CState)
    (hinv : CInv C i now N st) (hstep : CStep now st st') :
    CInv C i now N st' := by
  cases hstep with
  | step l1 l2 tid qs s f =>
      obtain ⟨hqs, hsle, hfail, hcount⟩ := hinv
      replace hqs : qs = [⟨(C : ℚ), i, (C : ℚ) - (s : ℚ), now⟩] := hqs
      replace hsle : s ≤ C := hsle
      replace hfail : 0 < f → s = C := hfail
      replace hcount : (l1 ++ tid :: l2).length + s + f = N := hcount
      have hc : (C : ℚ) - (s : ℚ) ≤ (C : ℚ) := by
        have hs0 : (0 : ℚ) ≤ (s : ℚ) := Nat.cast_nonneg s
        linarith
      have ha := attempt_single_now (C : ℚ) i ((C : ℚ) - (s : ℚ)) now hc
      by_cases hlt : (C : ℚ) - (s : ℚ) < 1
      · have hsC : s = C := by
          have h1 : C < s + 1 := by exact_mod_cast (by linarith : (C : ℚ) < (s : ℚ) + 1)
          omega
        rw [if_pos hlt] at ha
        rw [hqs, ha]
        refine ⟨rfl, hsle, fun _ => hsC, ?_⟩
        show (l1 ++ l2).length + s + (f + 1) = N
        simp only [List.length_append, List.length_cons] at hcount ⊢
        omega
      · have hsC : s < C := by
          have h1 : s + 1 ≤ C := by exact_mod_cast (by linarith : (s : ℚ) + 1 ≤ (C : ℚ))
          omega
        rw [if_neg hlt] at ha
        rw [hqs, ha]
        refine ⟨?_, ?_, ?_, ?_⟩
        · show [(⟨(C : ℚ), i, (C : ℚ) - (s : ℚ) - 1, now⟩ : Quota)] =
            [⟨(C : ℚ), i, (C : ℚ) - ((s + 1 : ℕ) : ℚ), now⟩]
          have hcast : (C : ℚ) - (s : ℚ) - 1 = (C : ℚ) - ((s + 1 : ℕ) : ℚ) := by
            push_cast; ring
          rw [hcast]
        · show s + 1 ≤ C
          omega
        · intro hf
          exact absurd (hfail hf) (by omega)
        · show (l1 ++ l2).length + (s + 1) + f = N
          simp only [List.length_append, List.length_cons] at hcount ⊢
          omega

theorem cexec_inv (C : ℕ) (i now : ℚ) (N : ℕ) (st st' : CState)
    (h : Relation.ReflTransGen (CStep now) st st') (hinv : CInv C i now N st) :
    CInv C i now N st' := by
  induction h with
  | refl => exact hinv
  | tail hab hbc ih => exact cstep_inv C i now N _ _ ih hbc

end YtConc

namespace YtUtils

/-! ### Further lemmas about the retry loop and the timeout guard -/

theorem timeoutHit_none (start now : ℚ) : timeoutHit none start now = false := rfl

theorem timeoutHit_zero (start now : ℚ) : timeoutHit (some 0) start now = false := by
  simp [timeoutHit]

theorem forall₂_tokens_le_trans (l1 l2 l3 : List Quota)
    (h12 : List.Forall₂ (fun a b => a.tokens ≤ b.tokens ∧ b.capacity = a.capacity ∧
      b.interval = a.interval) l1 l2)
    (h23 : List.Forall₂ (fun a b => a.tokens ≤ b.tokens ∧ b.capacity = a.capacity ∧
      b.interval = a.interval) l2 l3) :
    List.Forall₂ (fun a b => a.tokens ≤ b.tokens ∧ b.capacity = a.capacity ∧
      b.interval = a.interval) l1 l3 := by
  induction h12 generalizing l3 with
  | nil =>
      cases h23
      exact List.Forall₂.nil
  | cons hab h ih =>
      cases h23 with
      | cons hbc h' =>
          exact List.Forall₂.cons
            ⟨hab.1.trans hbc.1, hbc.2.1.trans hab.2.1, hbc.2.2.trans hab.2.2⟩ (ih _ h')

theorem acquireLoop_not_true_tokens_le (req : ℚ) (t : Option ℚ) (start : ℚ)
    (ts : List ℚ) : ∀ (now : ℚ) (qs : List Quota), AllInv now qs →
    List.Chain (· ≤ ·) now ts →
    (acquireLoop req t start ts qs).1 ≠ some true →
    List.Forall₂ (fun a b => a.tokens ≤ b.tokens ∧ b.capacity = a.capacity ∧
      b.interval = a.interval) qs (acquireLoop req t start ts qs).2 := by
  induction ts with
  | nil =>
      intro now qs _ _ _
      rw [acquireLoop_nil]
      exact List.forall₂_same.2 fun x _ => ⟨le_refl _, rfl, rfl⟩
  | cons n ts ih =>
      intro now qs hinv hch hne
      obtain ⟨hle, hch'⟩ := List.chain_cons.mp hch
      rw [acquireLoop_cons] at hne ⊢
      by_cases ha : (attempt n req qs).1 = true
      · rw [if_pos ha] at hne
        exact absurd rfl hne
      · have haf : (attempt n req qs).1 = false := by simpa using ha
        have hstep := attempt_tokens_le_of_false now n req qs hinv hle haf
        have hinv' : AllInv n (attempt n req qs).2 := by
          rw [attempt_snd_of_false n req qs haf]
          exact checkAndRefill_inv now n req qs hinv hle
        rw [if_neg (by simpa using ha)] at hne ⊢
        by_cases hto : timeoutHit t start n = true
        · rw [if_pos hto]
          exact hstep
        · rw [if_neg (by simpa using hto)] at hne ⊢
          exact forall₂_tokens_le_trans qs _ _ hstep
            (ih n (attempt n req qs).2 hinv' hch' hne)

theorem acquireLoop_zero_timeout (req start : ℚ) (ts : List ℚ) :
    ∀ qs : List Quota,
      acquireLoop req (some 0) start ts qs = acquireLoop req none start ts qs := by
  induction ts with
  | nil => intro qs; rfl
  | cons n ts ih =>
      intro qs
      rw [acquireLoop_cons, acquireLoop_cons, timeoutHit_zero, timeoutHit_none]
      by_cases h : (attempt n req qs).1 = true
      · rw [if_pos h, if_pos h]
      · simp only [if_neg h, if_neg Bool.false_ne_true]
        exact ih (attempt n req qs).2

theorem acquireLoop_none_fst_ne_false (req start : ℚ) (ts : List ℚ) :
    ∀ qs : List Quota, (acquireLoop req none start ts qs).1 ≠ some false := by
  induction ts with
  | nil =>
      intro qs h
      rw [acquireLoop_nil] at h
      exact Option.noConfusion h
  | cons n ts ih =>
      intro qs
      rw [acquireLoop_cons, timeoutHit_none]
      by_cases h : (attempt n req qs).1 = true
      · rw [if_pos h]
        intro hc
        exact Bool.noConfusion (Option.some.inj hc)
      · rw [if_neg (by simpa using h), if_neg Bool.false_ne_true]
        exact ih (attempt n req qs).2

end YtUtils

/-! ## The claims -/

/-- C1: for the multi-quota `acquire`, a token-check attempt succeeds exactly
when every registered bucket simultaneously has at least `tokensRequested`
tokens after refill; a failed attempt deducts from no bucket (every bucket is
either untouched or merely refilled); a successful attempt deducts exactly
`tokensRequested` from every bucket; and when the loop gives up on its
deadline it returns `False` with no bucket's balance below its starting
value — only the refill recomputation has been applied. -/
theorem claim_C1 (now req : ℚ) (timeout : Option ℚ) (ts : List ℚ)
    (qs : List YtUtils.Quota) (hinv : YtUtils.AllInv now qs)
    (hts : List.Chain (· ≤ ·) now ts) :
    ((YtUtils.attempt now req qs).1 = true ↔
      ∀ q ∈ qs, req ≤ (YtUtils.refillTokens now q).tokens) ∧
    ((YtUtils.attempt now req qs).1 = false →
      List.Forall₂ (fun a b => b = a ∨ b = YtUtils.refillTokens now a) qs
        (YtUtils.attempt now req qs).2) ∧
    ((YtUtils.attempt now req qs).1 = true →
      (YtUtils.attempt now req qs).2 = qs.map fun q =>
        { YtUtils.refillTokens now q with
            tokens := (YtUtils.refillTokens now q).tokens - req }) ∧
    ((YtUtils.acquireLoop req timeout now (now :: ts) qs).1 = some false →
      List.Forall₂ (fun a b => a.tokens ≤ b.tokens ∧ b.capacity = a.capacity ∧
        b.interval = a.interval) qs
        (YtUtils.acquireLoop req timeout now (now :: ts) qs).2) := by
  refine ⟨YtUtils.attempt_fst_true_iff now req qs, ?_,
    YtUtils.attempt_snd_of_true now req qs, ?_⟩
  · intro hf
    rw [YtUtils.attempt_snd_of_false now req qs hf]
    exact YtUtils.checkAndRefill_forall₂ now req qs
  · intro hfalse
    refine YtUtils.acquireLoop_not_true_tokens_le req timeout now (now :: ts)
      now qs hinv (List.chain_cons.mpr ⟨le_refl now, hts⟩) ?_
    rw [hfalse]
    simp

/-- Witness for C1 at a one-bucket limiter with capacity 10, interval 1,
balance 5, request 3, timeout 1, single scheduled iteration at time 0. -/
theorem claim_C1_witness :
    YtUtils.AllInv 0 [⟨10, 1, 5, 0⟩] ∧ List.Chain (· ≤ ·) (0 : ℚ) [] ∧
    (((YtUtils.attempt 0 3 [⟨10, 1, 5, 0⟩]).1 = true ↔
      ∀ q ∈ [(⟨10, 1, 5, 0⟩ : YtUtils.Quota)],
        3 ≤ (YtUtils.refillTokens 0 q).tokens) ∧
    ((YtUtils.attempt 0 3 [⟨10, 1, 5, 0⟩]).1 = false →
      List.Forall₂ (fun a b => b = a ∨ b = YtUtils.refillTokens 0 a)
        [⟨10, 1, 5, 0⟩] (YtUtils.attempt 0 3 [⟨10, 1, 5, 0⟩]).2) ∧
    ((YtUtils.attempt 0 3 [⟨10, 1, 5, 0⟩]).1 = true →
      (YtUtils.attempt 0 3 [⟨10, 1, 5, 0⟩]).2 =
        [(⟨10, 1, 5, 0⟩ : YtUtils.Quota)].map fun q =>
          { YtUtils.refillTokens 0 q with
              tokens := (YtUtils.refillTokens 0 q).tokens - 3 }) ∧
    ((YtUtils.acquireLoop 3 (some 1) 0 [0] [⟨10, 1, 5, 0⟩]).1 = some false →
      List.Forall₂ (fun (a b : YtUtils.Quota) =>
        a.tokens ≤ b.tokens ∧ b.capacity = a.capacity ∧
        b.interval = a.interval) [⟨10, 1, 5, 0⟩]
        (YtUtils.acquireLoop 3 (some 1) 0 [0] [⟨10, 1, 5, 0⟩]).2)) := by
  have hinv : YtUtils.AllInv 0 [(⟨10, 1, 5, 0⟩ : YtUtils.Quota)] := by
    intro q hq
    rw [List.mem_singleton] at hq
    subst hq
    exact ⟨by norm_num, by norm_num, by norm_num, by norm_num, le_refl 0⟩
  have hch : List.Chain (· ≤ ·) (0 : ℚ) [] := List.Chain.nil
  exact ⟨hinv, hch, claim_C1 0 3 (some 1) [] [⟨10, 1, 5, 0⟩] hinv hch⟩

/-- C2: for every reachable state of the multi-quota limiter and of the
single-key limiter — any sequence of acquire / check / status /
get-remaining calls after construction, each requesting at least one
token — every bucket's balance satisfies `0 ≤ tokens ≤ capacity`. -/
theorem claim_C2 (now : ℚ) (qs : List YtUtils.Quota) (bs : YtSec.Buckets)
    (h1 : YtUtils.Reach now qs) (h2 : YtSec.SReach now bs) :
    (∀ q ∈ qs, 0 ≤ q.tokens ∧ q.tokens ≤ q.capacity) ∧
    (∀ p ∈ bs, 0 ≤ p.2.tokens ∧ p.2.tokens ≤ p.2.capacity) := by
  constructor
  · intro q hq
    obtain ⟨_, _, h0, hle, _⟩ := YtUtils.reach_allInv now qs h1 q hq
    exact ⟨h0, hle⟩
  · intro p hp
    obtain ⟨_, _, h0, hle, _⟩ := YtSec.sreach_allBucketInv now bs h2 p hp
    exact ⟨h0, hle⟩

/-- Witness for C2 at a freshly constructed multi-quota limiter with one
quota of capacity 10 and interval 1, and a freshly constructed single-key
limiter. -/
theorem claim_C2_witness :
    YtUtils.Reach 0 [⟨10, 1, 10, 0⟩] ∧ YtSec.SReach 0 [] ∧
    ((∀ q ∈ [(⟨10, 1, 10, 0⟩ : YtUtils.Quota)],
        0 ≤ q.tokens ∧ q.tokens ≤ q.capacity) ∧
     (∀ p ∈ ([] : YtSec.Buckets), 0 ≤ p.2.tokens ∧ p.2.tokens ≤ p.2.capacity)) := by
  have h1 : YtUtils.Reach 0 [(⟨10, 1, 10, 0⟩ : YtUtils.Quota)] := by
    refine YtUtils.Reach.init 0 _ ?_
    intro q hq
    rw [List.mem_singleton] at hq
    subst hq
    exact ⟨by norm_num, by norm_num, rfl, rfl⟩
  have h2 : YtSec.SReach 0 [] := YtSec.SReach.init 0
  exact ⟨h1, h2, claim_C2 0 [⟨10, 1, 10, 0⟩] [] h1 h2⟩

/-- C3 counterexample: with `timeout=0` the guard
`if timeout and (time.time() - start_time) > timeout` never fires (Python
treats `0` as falsy), so an `acquire` on an exhausted bucket does not perform
one attempt and return `False`: five successive scheduled iterations all
retry and the loop is still running (`none`), contradicting the claimed
immediate single-attempt `False`. -/
theorem claim_C3_counterexample :
    (YtUtils.acquireLoop 5 (some 0) 0 [0, 0, 0, 0, 0] [⟨10, 1, 0, 0⟩]).1 = none := by
  norm_num [YtUtils.acquireLoop, YtUtils.attempt, YtUtils.checkAndRefill,
    YtUtils.refillTokens, YtUtils.timeoutHit, min_def]

/-- C3 amended: `acquire(tokens, timeout=0)` is treated exactly like
`acquire(tokens, timeout=None)` — the zero timeout is falsy, so the deadline
check never fires: the call still returns `True` as soon as an attempt
succeeds (in particular immediately when every bucket has enough tokens at
the first check), but when tokens are insufficient it never returns `False`
and keeps retrying indefinitely instead of failing after one attempt. -/
theorem claim_C3 (req start now : ℚ) (ts : List ℚ) (qs : List YtUtils.Quota) :
    YtUtils.acquireLoop req (some 0) start ts qs =
      YtUtils.acquireLoop req none start ts qs ∧
    (YtUtils.acquireLoop req (some 0) start ts qs).1 ≠ some false ∧
    ((YtUtils.attempt now req qs).1 = true →
      YtUtils.acquireLoop req (some 0) start (now :: ts) qs =
        (some true, (YtUtils.attempt now req qs).2)) := by
  refine ⟨YtUtils.acquireLoop_zero_timeout req start ts qs, ?_, ?_⟩
  · rw [YtUtils.acquireLoop_zero_timeout req start ts qs]
    exact YtUtils.acquireLoop_none_fst_ne_false req start ts qs
  · intro h
    rw [YtUtils.acquireLoop_cons, if_pos h]

/-- Witness for C3 (amended): a first-attempt success with `timeout=0`
returns `True` immediately. -/
theorem claim_C3_witness :
    (YtUtils.attempt 0 1 [⟨10, 1, 5, 0⟩]).1 = true ∧
    YtUtils.acquireLoop 1 (some 0) 0 [0] [⟨10, 1, 5, 0⟩] =
      (some true, (YtUtils.attempt 0 1 [⟨10, 1, 5, 0⟩]).2) := by
  have h : (YtUtils.attempt 0 1 [(⟨10, 1, 5, 0⟩ : YtUtils.Quota)]).1 = true := by
    norm_num [YtUtils.attempt, YtUtils.checkAndRefill, YtUtils.refillTokens, min_def]
  exact ⟨h, (claim_C3 1 0 0 [] [⟨10, 1, 5, 0⟩]).2.2 h⟩

/-- C4: on every observation both refill routines compute
`elapsed = now - lastRefill`, add `gained = elapsed * refillRate`
(`elapsed / interval * capacity` in the multi-quota form, which equals
`elapsed * (capacity / interval)`), clamp at the capacity and stamp
`lastRefill = now`; the status query refills every bucket this way and the
token check of an acquisition attempt refills every bucket it inspects. -/
theorem claim_C4 (now req : ℚ) (q : YtUtils.Quota) (b : YtSec.TokenBucket)
    (qs : List YtUtils.Quota) :
    YtUtils.refillTokens now q = ⟨q.capacity, q.interval,
      min q.capacity (q.tokens + (now - q.lastRefill) / q.interval * q.capacity),
      now⟩ ∧
    (now - q.lastRefill) / q.interval * q.capacity =
      (now - q.lastRefill) * (q.capacity / q.interval) ∧
    YtSec.refillBucket now b = ⟨b.capacity, b.refill_rate,
      min b.capacity (b.tokens + (now - b.last_refill) * b.refill_rate), now⟩ ∧
    (YtUtils.getQuotaStatus now qs).2 = qs.map (YtUtils.refillTokens now) ∧
    List.Forall₂ (fun a c => c = a ∨ c = YtUtils.refillTokens now a) qs
      (YtUtils.checkAndRefill now req qs).2 := by
  refine ⟨rfl, ?_, rfl, rfl, YtUtils.checkAndRefill_forall₂ now req qs⟩
  rw [div_mul_eq_mul_div, mul_div_assoc]

/-- C5: between two status reads with no acquisition in between, a bucket's
balance does not decrease and increases by exactly
`min (capacity - tokensBefore) (elapsed * refillRate)` with
`refillRate = capacity / interval`. -/
theorem claim_C5 (cap i tok t0 t1 t2 : ℚ) (hcap : 0 ≤ cap) (hi : 0 < i)
    (h0 : 0 ≤ tok) (hlecap : tok ≤ cap) (h01 : t0 ≤ t1) (h12 : t1 ≤ t2) :
    ∃ T1 T2 : ℚ,
      (YtUtils.getQuotaStatus t1 [⟨cap, i, tok, t0⟩]).2 = [⟨cap, i, T1, t1⟩] ∧
      (YtUtils.getQuotaStatus t2 [⟨cap, i, T1, t1⟩]).2 = [⟨cap, i, T2, t2⟩] ∧
      T1 ≤ T2 ∧ T2 - T1 = min (cap - T1) ((t2 - t1) * (cap / i)) := by
  refine ⟨min cap (tok + (t1 - t0) / i * cap),
    min cap (min cap (tok + (t1 - t0) / i * cap) + (t2 - t1) / i * cap),
    rfl, rfl, ?_, ?_⟩
  · have hgnn : 0 ≤ (t2 - t1) / i * cap :=
      mul_nonneg (div_nonneg (by linarith) hi.le) hcap
    exact le_min (min_le_left _ _) (by linarith)
  · rw [← min_sub_sub_right, add_sub_cancel_left, div_mul_eq_mul_div, mul_div_assoc]
    congr 1
    rw [div_mul_eq_mul_div, mul_div_assoc]

/-- Witness for C5 with capacity 10, interval 10 (rate 1 per second),
balance 4, reads at times 1 and 2. -/
theorem claim_C5_witness :
    (0 : ℚ) ≤ 10 ∧ (0 : ℚ) < 10 ∧ (0 : ℚ) ≤ 4 ∧ (4 : ℚ) ≤ 10 ∧
    (0 : ℚ) ≤ 1 ∧ (1 : ℚ) ≤ 2 ∧
    (∃ T1 T2 : ℚ,
      (YtUtils.getQuotaStatus 1 [⟨10, 10, 4, 0⟩]).2 = [⟨10, 10, T1, 1⟩] ∧
      (YtUtils.getQuotaStatus 2 [⟨10, 10, T1, 1⟩]).2 = [⟨10, 10, T2, 2⟩] ∧
      T1 ≤ T2 ∧ T2 - T1 = min (10 - T1) ((2 - 1) * (10 / 10))) :=
  ⟨by norm_num, by norm_num, by norm_num, by norm_num, by norm_num, by norm_num,
    claim_C5 10 10 4 0 1 2 (by norm_num) (by norm_num) (by norm_num)
      (by norm_num) (by norm_num) (by norm_num)⟩

/-- C6 counterexample: `acquire` performs no validation of the requested
token count.  A request of `-1` tokens against a bucket holding 3 tokens is
not rejected: the attempt reads and refills the bucket, reports success and
"deducts" `-1`, leaving the balance at 4 — the bucket state was both read
and modified, contradicting the claimed synchronous rejection. -/
theorem claim_C6_counterexample :
    YtUtils.attempt 0 (-1) [⟨10, 1, 3, 0⟩] = (true, [⟨10, 1, 4, 0⟩]) ∧
    (⟨10, 1, 4, 0⟩ : YtUtils.Quota).tokens ≠ (⟨10, 1, 3, 0⟩ : YtUtils.Quota).tokens := by
  constructor
  · norm_num [YtUtils.attempt, YtUtils.checkAndRefill, YtUtils.refillTokens, min_def]
  · show (4 : ℚ) ≠ 3
    norm_num

/-- C6 amended: the multi-quota `acquire` does not validate
`tokensRequested` at all.  A non-positive request is processed like any
other: since every refilled balance is nonnegative, the token check can
never fail against `req ≤ 0`, so the first attempt succeeds and `req` is
"deducted" from every bucket (increasing balances when `req < 0`). -/
theorem claim_C6 (now req : ℚ) (qs : List YtUtils.Quota)
    (hreq : req ≤ 0) (hinv : YtUtils.AllInv now qs) :
    YtUtils.attempt now req qs =
      (true, qs.map fun q => { YtUtils.refillTokens now q with
        tokens := (YtUtils.refillTokens now q).tokens - req }) := by
  have htrue : (YtUtils.attempt now req qs).1 = true := by
    rw [YtUtils.attempt_fst_true_iff]
    intro q hq
    obtain ⟨hcap, hint, h0, hlecap, hlast⟩ := hinv q hq
    have hg : 0 ≤ (now - q.lastRefill) / q.interval * q.capacity :=
      mul_nonneg (div_nonneg (by linarith) hint.le) hcap
    exact le_trans hreq (le_min hcap (by linarith))
  have hsnd := YtUtils.attempt_snd_of_true now req qs htrue
  rw [Prod.ext_iff]
  exact ⟨htrue, hsnd⟩

/-- Witness for C6 (amended) with a zero-token request against a one-bucket
limiter holding 3 of 10 tokens. -/
theorem claim_C6_witness :
    (0 : ℚ) ≤ 0 ∧ YtUtils.AllInv 0 [⟨10, 1, 3, 0⟩] ∧
    YtUtils.attempt 0 0 [⟨10, 1, 3, 0⟩] =
      (true, [(⟨10, 1, 3, 0⟩ : YtUtils.Quota)].map fun q =>
        { YtUtils.refillTokens 0 q with
            tokens := (YtUtils.refillTokens 0 q).tokens - 0 }) := by
  have hinv : YtUtils.AllInv 0 [(⟨10, 1, 3, 0⟩ : YtUtils.Quota)] := by
    intro q hq
    rw [List.mem_singleton] at hq
    subst hq
    exact ⟨by norm_num, by norm_num, by norm_num, by norm_num, le_refl 0⟩
  exact ⟨le_refl 0, hinv, claim_C6 0 0 [⟨10, 1, 3, 0⟩] (le_refl 0) hinv⟩

/-- C7: `check_limit` on a key with no registered bucket logs a warning and
returns `True` with every bucket unchanged, for every requested token
count — the fail-open policy on missing configuration. -/
theorem claim_C7 (now : ℚ) (key : String) (req : ℚ) (bs : YtSec.Buckets)
    (h : YtSec.lookupBucket key bs = none) :
    YtSec.checkLimit now key req bs = (true, bs) :=
  YtSec.checkLimit_none now key req bs h

/-- Witness for C7: an unregistered key against a limiter holding one bucket
under another key. -/
theorem claim_C7_witness :
    YtSec.lookupBucket ("unknown") [("api", ⟨100, 10, 100, 0⟩)] = none ∧
    YtSec.checkLimit 5 ("unknown") 3 [("api", ⟨100, 10, 100, 0⟩)] =
      (true, [("api", ⟨100, 10, 100, 0⟩)]) :=
  ⟨by decide, claim_C7 5 ("unknown") 3 [("api", ⟨100, 10, 100, 0⟩)] (by decide)⟩

/-- C8: the cost model is a pure lookup: a registered operation kind maps to
its table entry (1, 1 and 100 for the three registered kinds), any
unregistered kind maps to the default cost 1, and `_check_quota` passes
exactly this cost as the token count of `acquire`. -/
theorem claim_C8 :
    (∀ op c, (List.find? (fun p => p.1 == op) YtApi.QUOTA_COSTS).map Prod.snd =
        some c → YtApi.quotaCost op = c) ∧
    (∀ op, List.find? (fun p => p.1 == op) YtApi.QUOTA_COSTS = none →
      YtApi.quotaCost op = 1) ∧
    YtApi.quotaCost ("list_videos") = 1 ∧
    YtApi.quotaCost ("list_comments") = 1 ∧
    YtApi.quotaCost ("search_videos") = 100 ∧
    YtApi.quotaCost ("list_captions") = 1 ∧
    (∀ op timeout start ts qs, YtApi.checkQuota op timeout start ts qs =
      YtUtils.acquireLoop (YtApi.quotaCost op) timeout start ts qs) := by
  refine ⟨?_, ?_, by decide, by decide, by decide, by decide,
    fun op timeout start ts qs => rfl⟩
  · intro op c h
    unfold YtApi.quotaCost
    rw [h]
    rfl
  · intro op h
    unfold YtApi.quotaCost
    rw [h]
    rfl

/-- Witness for C8: an operation kind absent from the cost table gets the
default cost 1. -/
theorem claim_C8_witness : YtApi.quotaCost ("playlist_items") = 1 :=
  claim_C8.2.1 ("playlist_items") (by decide)

/-- C9: no double-spend under concurrency.  The lock-protected
refill-check-deduct sequence of `acquire` is atomic, so the competing calls
serialise into an arbitrary order of atomic attempts; for every such
interleaving of `N` threads each running `acquire(1)` against a bucket of
capacity `C` with no refill in the window (all attempts at one clock
reading), exactly `min N C` calls succeed and the remaining `N - min N C`
fail. -/
theorem claim_C9 (C N : ℕ) (i now : ℚ) (ids : List ℕ) (hlen : ids.length = N)
    (qs : List YtUtils.Quota) (s f : ℕ)
    (hexec : Relation.ReflTransGen (YtConc.CStep now)
      ⟨ids, [⟨(C : ℚ), i, (C : ℚ), now⟩], 0, 0⟩ ⟨[], qs, s, f⟩) :
    s = min N C ∧ f = N - min N C := by
  have hinv0 : YtConc.CInv C i now N ⟨ids, [⟨(C : ℚ), i, (C : ℚ), now⟩], 0, 0⟩ := by
    refine ⟨?_, Nat.zero_le C, ?_, ?_⟩
    · show [(⟨(C : ℚ), i, (C : ℚ), now⟩ : YtUtils.Quota)] =
        [⟨(C : ℚ), i, (C : ℚ) - ((0 : ℕ) : ℚ), now⟩]
      norm_num
    · intro h
      exact absurd h (lt_irrefl 0)
    · show ids.length + 0 + 0 = N
      simpa using hlen
  obtain ⟨hqs, hsle, hfail, hcount⟩ := YtConc.cexec_inv C i now N _ _ hexec hinv0
  replace hsle : s ≤ C := hsle
  replace hfail : 0 < f → s = C := hfail
  replace hcount : s + f = N := by simpa using hcount
  by_cases hf : f = 0
  · subst hf
    constructor <;> omega
  · have hsC : s = C := hfail (Nat.pos_of_ne_zero hf)
    constructor <;> omega

/-- Witness for C9: two threads against a bucket of capacity one; the
interleaving that runs thread 0 first then thread 1 yields one success and
one failure, which is `min 2 1` and `2 - min 2 1`. -/
theorem claim_C9_witness :
    ([0, 1] : List ℕ).length = 2 ∧ ((1 : ℕ) = min 2 1 ∧ (1 : ℕ) = 2 - min 2 1) := by
  have e1 : YtUtils.attempt 0 1 [(⟨1, 1, 1, 0⟩ : YtUtils.Quota)] =
      (true, [⟨1, 1, 0, 0⟩]) := by
    norm_num [YtUtils.attempt, YtUtils.checkAndRefill, YtUtils.refillTokens, min_def]
  have e2 : YtUtils.attempt 0 1 [(⟨1, 1, 0, 0⟩ : YtUtils.Quota)] =
      (false, [⟨1, 1, 0, 0⟩]) := by
    norm_num [YtUtils.attempt, YtUtils.checkAndRefill, YtUtils.refillTokens, min_def]
  have h1 : YtConc.CStep 0 ⟨[0, 1], [⟨1, 1, 1, 0⟩], 0, 0⟩
      ⟨[1], [⟨1, 1, 0, 0⟩], 1, 0⟩ := by
    have h := @YtConc.CStep.step 0 [] [1] 0 [⟨1, 1, 1, 0⟩] 0 0
    rw [e1] at h
    simpa using h
  have h2 : YtConc.CStep 0 ⟨[1], [⟨1, 1, 0, 0⟩], 1, 0⟩
      ⟨[], [⟨1, 1, 0, 0⟩], 1, 1⟩ := by
    have h := @YtConc.CStep.step 0 [] [] 1 [⟨1, 1, 0, 0⟩] 1 0
    rw [e2] at h
    simpa using h
  have hexec : Relation.ReflTransGen (YtConc.CStep 0)
      ⟨[0, 1], [⟨1, 1, 1, 0⟩], 0, 0⟩ ⟨[], [⟨1, 1, 0, 0⟩], 1, 1⟩ :=
    (Relation.ReflTransGen.refl.tail h1).tail h2
  exact ⟨rfl, claim_C9 1 2 1 0 [0, 1] rfl [⟨1, 1, 0, 0⟩] 1 1 hexec⟩

/-- C10: `acquire(tokens=0, timeout)` on a limiter with at least one
registered quota succeeds on its first token-check attempt for every timeout
value — every refilled balance is at least the requested 0 — and each
bucket's balance afterwards is exactly its refilled value (deducting 0
changes nothing). -/
theorem claim_C10 (timeout : Option ℚ) (start now : ℚ) (ts : List ℚ)
    (qs : List YtUtils.Quota) (hne : qs ≠ [])
    (hinv : YtUtils.AllInv now qs) :
    YtUtils.acquireLoop 0 timeout start (now :: ts) qs =
      (some true, qs.map (YtUtils.refillTokens now)) := by
  have htrue : (YtUtils.attempt now 0 qs).1 = true := by
    rw [YtUtils.attempt_fst_true_iff]
    intro q hq
    obtain ⟨hcap, hint, h0, hlecap, hlast⟩ := hinv q hq
    have hg : 0 ≤ (now - q.lastRefill) / q.interval * q.capacity :=
      mul_nonneg (div_nonneg (by linarith) hint.le) hcap
    exact le_min hcap (by linarith)
  have hsnd := YtUtils.attempt_snd_of_true now 0 qs htrue
  rw [YtUtils.acquireLoop_cons, if_pos htrue, hsnd]
  refine congrArg (Prod.mk (some true)) (List.map_congr_left fun a _ => ?_)
  rw [sub_zero]

/-- Witness for C10: a zero-token acquire against a one-bucket limiter with
4 of 10 tokens returns success at once and leaves the refilled balance. -/
theorem claim_C10_witness :
    ([(⟨10, 1, 4, 0⟩ : YtUtils.Quota)] ≠ []) ∧
    YtUtils.AllInv 0 [⟨10, 1, 4, 0⟩] ∧
    YtUtils.acquireLoop 0 none 0 [0] [⟨10, 1, 4, 0⟩] =
      (some true, [(⟨10, 1, 4, 0⟩ : YtUtils.Quota)].map (YtUtils.refillTokens 0)) := by
  have hne : [(⟨10, 1, 4, 0⟩ : YtUtils.Quota)] ≠ [] := by simp
  have hinv : YtUtils.AllInv 0 [(⟨10, 1, 4, 0⟩ : YtUtils.Quota)] := by
    intro q hq
    rw [List.mem_singleton] at hq
    subst hq
    exact ⟨by norm_num, by norm_num, by norm_num, by norm_num, le_refl 0⟩
  exact ⟨hne, hinv, claim_C10 none 0 0 [] [⟨10, 1, 4, 0⟩] hne hinv⟩
